import Mathlib

/-!
Shallow embedding of `src/project.py` (BSTA040-Final): a surveillance
dashboard that loads weekly ILI records, derives a per-state week index,
renders an optionally smoothed time series, and fits an exponential
distribution (rate = 1 / sample mean) to the per-state values.

Numeric values are modelled as rationals; tables as lists of rows.
-/

namespace Project

/-- A raw CSV record of `ilidata.csv`: a state (group key), an epiweek
label (time marker), and an `ili` value that may be missing (NaN). -/
structure RawRow where
  state : String
  epiweek : String
  ili : Option ℚ
deriving DecidableEq

/-- A row of the loaded table, after dropping missing values and adding
the derived `weeks` column. -/
structure DataRow where
  state : String
  epiweek : String
  ili : ℚ
  weeks : ℕ
deriving DecidableEq

/-- `df.dropna(subset=["ili"])` — keep exactly the rows whose `ili` value
is present, in order. -/
def dropnaIli (rows : List RawRow) : List (String × String × ℚ) :=
  rows.filterMap fun r => r.ili.map fun v => (r.state, r.epiweek, v)

/-- `df["weeks"] = df.groupby("state").cumcount()` — walk the filtered
rows in order, giving each row the running count of earlier rows with
the same state; `count` carries the per-state counters. -/
def assignWeeks : List (String × String × ℚ) → (String → ℕ) → List DataRow
  | [], _ => []
  | (s, w, v) :: rest, count =>
    { state := s, epiweek := w, ili := v, weeks := count s } ::
      assignWeeks rest fun t => if t = s then count t + 1 else count t

/-- `load_data` of `project.py`: parse (given as `rows`), drop rows with
missing `ili`, assign the per-state cumulative week counter. -/
def load_data (rows : List RawRow) : List DataRow :=
  assignWeeks (dropnaIli rows) fun _ => 0

/-- `df_loaded[df_loaded["state"] == state]` — rows of the selected state. -/
def state_df (table : List DataRow) (key : String) : List DataRow :=
  table.filter fun r => r.state == key

/-- `state_df.set_index("weeks")["ili"]` — the (weeks, ili) series for
the selected state. -/
def y_series_data (table : List DataRow) (key : String) : List (ℕ × ℚ) :=
  (state_df table key).map fun r => (r.weeks, r.ili)

/-- Arithmetic mean of a list of rationals (`.mean()`); `0` on the empty
list (where the code never uses it). -/
def listMean (xs : List ℚ) : ℚ := xs.sum / (xs.length : ℚ)

/-- The trailing window pandas uses at position `i` with
`rolling(window=5, min_periods=1)`: elements `max (i-4) 0 .. i`. -/
def window5 (xs : List ℚ) (i : ℕ) : List ℚ :=
  (xs.take (i + 1)).drop (i - 4)

/-- `pd.Series(values).rolling(window=5, min_periods=1).mean()` — each
position becomes the mean of its trailing window of up to 5 values. -/
def rolling5 (xs : List ℚ) : List ℚ :=
  (List.range xs.length).map fun i => listMean (window5 xs i)

/-- The Chart 1 series: `y_series` of `project.py`. With the `average`
checkbox on and a non-empty selection, the values are rolled and
re-indexed with the original `weeks` index; otherwise raw. -/
def time_series (table : List DataRow) (key : String) (average : Bool) :
    List (ℕ × ℚ) :=
  let ys := y_series_data table key
  if average then
    if ys.isEmpty then ys
    else (ys.map Prod.fst).zip (rolling5 (ys.map Prod.snd))
  else ys

/-- `ili_value = state_df["ili"].values` — the metric values of the
selected state, as a plain array. -/
def ili_value (table : List DataRow) (key : String) : List ℚ :=
  (state_df table key).map fun r => r.ili

/-- `numpy` `.max()` of a non-empty array (0 on the empty array, which
the code never takes). -/
def listMax : List ℚ → ℚ
  | [] => 0
  | x :: xs => xs.foldl max x

/-- `numpy` `.min()` of a non-empty array (0 on the empty array). -/
def listMin : List ℚ → ℚ
  | [] => 0
  | x :: xs => xs.foldl min x

/-- The data Chart 2 computes when the fit succeeds: `lambda_hat`, the
sample mean and count, the raw values, and `x_max_plot` (the upper end of
the `linspace(0, x_max_plot, 300)` plotting domain). -/
structure FitResult where
  rate : ℚ
  sample_mean : ℚ
  sample_count : ℕ
  values : List ℚ
  domain_max : ℚ
deriving DecidableEq

/-- The Chart 2 guard and computation of `project.py`: if
`ili_value.size > 0 and ili_value.mean() > 0` then
`lambda_hat = 1.0 / ili_value.mean()` and `x_max_plot = max * 1.1`;
otherwise the `else` branch renders the "not enough data" message,
modelled as `none` (the NoFit sentinel). -/
def fit_exponential (vs : List ℚ) : Option FitResult :=
  if 0 < vs.length ∧ 0 < listMean vs then
    some { rate := 1 / listMean vs,
           sample_mean := listMean vs,
           sample_count := vs.length,
           values := vs,
           domain_max := listMax vs * (11 / 10) }
  else none

/-- A small raw input used for the end-to-end checks: six "CA" records
with values 1, 3, 5, 2, 4, 6 in order, two interleaved "TX" records, one
of which has a missing value. -/
def sampleRaw : List RawRow :=
  [⟨"CA", "2010w01", some 1⟩, ⟨"TX", "2010w01", some 7⟩,
   ⟨"CA", "2010w02", some 3⟩, ⟨"CA", "2010w03", some 5⟩,
   ⟨"TX", "2010w02", none⟩, ⟨"CA", "2010w04", some 2⟩,
   ⟨"CA", "2010w05", some 4⟩, ⟨"CA", "2010w06", some 6⟩]

/-- The table the loader produces from `sampleRaw`. -/
def sampleTable : List DataRow := load_data sampleRaw

/-! ### Helper lemmas -/

theorem length_rolling5 (xs : List ℚ) : (rolling5 xs).length = xs.length := by
  simp [rolling5]

theorem rolling5_getElem? (xs : List ℚ) (i : ℕ) (h : i < xs.length) :
    (rolling5 xs)[i]? = some (listMean (window5 xs i)) := by
  simp [rolling5, List.getElem?_range h]

theorem window5_eq_drop_take (xs : List ℚ) (i : ℕ) :
    window5 xs i = (xs.drop (i - 4)).take (min (i + 1) 5) := by
  rw [window5, List.drop_take]
  congr 1
  omega

theorem window5_length (xs : List ℚ) (i : ℕ) (h : i < xs.length) :
    (window5 xs i).length = min (i + 1) 5 := by
  simp only [window5, List.length_drop, List.length_take]
  omega

theorem window5_ne_nil (xs : List ℚ) (i : ℕ) (h : i < xs.length) :
    window5 xs i ≠ [] := by
  have hl := window5_length xs i h
  intro hcon
  rw [hcon] at hl
  simp at hl
  omega

theorem mem_window5 {xs : List ℚ} {i : ℕ} {x : ℚ} (hx : x ∈ window5 xs i) :
    x ∈ xs :=
  List.mem_of_mem_take (List.mem_of_mem_drop hx)

theorem listMean_const {c : ℚ} {l : List ℚ} (h : ∀ x ∈ l, x = c)
    (hne : l ≠ []) : listMean l = c := by
  have hsum : l.sum = l.length • c := List.sum_eq_card_nsmul l c h
  have hlen : (l.length : ℚ) ≠ 0 := by
    simpa using hne
  rw [listMean, hsum, nsmul_eq_mul, mul_comm, mul_div_cancel_right₀ _ hlen]

theorem listMean_le {b : ℚ} {l : List ℚ} (hne : l ≠ [])
    (hb : ∀ x ∈ l, x ≤ b) : listMean l ≤ b := by
  have h1 : l.sum ≤ l.length • b := List.sum_le_card_nsmul l b hb
  have hlen : (0 : ℚ) < l.length := by
    simpa using List.length_pos.2 hne
  rw [listMean, div_le_iff₀ hlen]
  rw [nsmul_eq_mul] at h1
  linarith

theorem le_listMean {a : ℚ} {l : List ℚ} (hne : l ≠ [])
    (ha : ∀ x ∈ l, a ≤ x) : a ≤ listMean l := by
  have h1 : l.length • a ≤ l.sum := List.card_nsmul_le_sum l a ha
  have hlen : (0 : ℚ) < l.length := by
    simpa using List.length_pos.2 hne
  rw [listMean, le_div_iff₀ hlen]
  rw [nsmul_eq_mul] at h1
  linarith

theorem foldl_max_le_init (l : List ℚ) (a : ℚ) : a ≤ l.foldl max a := by
  induction l generalizing a with
  | nil => simp
  | cons y ys ih => exact le_trans (le_max_left a y) (ih (max a y))

theorem le_foldl_max (l : List ℚ) (a : ℚ) {x : ℚ} (hx : x ∈ l) :
    x ≤ l.foldl max a := by
  induction l generalizing a with
  | nil => cases hx
  | cons y ys ih =>
    rw [List.foldl_cons]
    rcases List.mem_cons.1 hx with h | h
    · subst h
      exact le_trans (le_max_right a x) (foldl_max_le_init ys (max a x))
    · exact ih (max a y) h

theorem foldl_max_mem (l : List ℚ) (a : ℚ) : l.foldl max a ∈ a :: l := by
  induction l generalizing a with
  | nil => simp
  | cons y ys ih =>
    rw [List.foldl_cons]
    rcases List.mem_cons.1 (ih (max a y)) with h1 | h1
    · rcases max_choice a y with hm | hm
      · rw [h1, hm]
        exact List.mem_cons_self _ _
      · rw [h1, hm]
        exact List.mem_cons_of_mem _ (List.mem_cons_self _ _)
    · exact List.mem_cons_of_mem _ (List.mem_cons_of_mem _ h1)

theorem foldl_min_init_le (l : List ℚ) (a : ℚ) : l.foldl min a ≤ a := by
  induction l generalizing a with
  | nil => simp
  | cons y ys ih => exact le_trans (ih (min a y)) (min_le_left a y)

theorem foldl_min_le (l : List ℚ) (a : ℚ) {x : ℚ} (hx : x ∈ l) :
    l.foldl min a ≤ x := by
  induction l generalizing a with
  | nil => cases hx
  | cons y ys ih =>
    rw [List.foldl_cons]
    rcases List.mem_cons.1 hx with h | h
    · subst h
      exact le_trans (foldl_min_init_le ys (min a x)) (min_le_right a x)
    · exact ih (min a y) h

theorem foldl_min_mem (l : List ℚ) (a : ℚ) : l.foldl min a ∈ a :: l := by
  induction l generalizing a with
  | nil => simp
  | cons y ys ih =>
    rw [List.foldl_cons]
    rcases List.mem_cons.1 (ih (min a y)) with h1 | h1
    · rcases min_choice a y with hm | hm
      · rw [h1, hm]
        exact List.mem_cons_self _ _
      · rw [h1, hm]
        exact List.mem_cons_of_mem _ (List.mem_cons_self _ _)
    · exact List.mem_cons_of_mem _ (List.mem_cons_of_mem _ h1)

theorem le_listMax {l : List ℚ} {x : ℚ} (hx : x ∈ l) : x ≤ listMax l := by
  cases l with
  | nil => cases hx
  | cons y ys =>
    rw [listMax]
    rcases List.mem_cons.1 hx with h | h
    · subst h
      exact foldl_max_le_init ys x
    · exact le_foldl_max ys y h

theorem listMax_mem {l : List ℚ} (h : l ≠ []) : listMax l ∈ l := by
  cases l with
  | nil => exact absurd rfl h
  | cons y ys =>
    rw [listMax]
    exact foldl_max_mem ys y

theorem listMin_le {l : List ℚ} {x : ℚ} (hx : x ∈ l) : listMin l ≤ x := by
  cases l with
  | nil => cases hx
  | cons y ys =>
    rw [listMin]
    rcases List.mem_cons.1 hx with h | h
    · subst h
      exact foldl_min_init_le ys x
    · exact foldl_min_le ys y h

theorem listMin_mem {l : List ℚ} (h : l ≠ []) : listMin l ∈ l := by
  cases l with
  | nil => exact absurd rfl h
  | cons y ys =>
    rw [listMin]
    exact foldl_min_mem ys y

theorem assignWeeks_length (l : List (String × String × ℚ))
    (c : String → ℕ) : (assignWeeks l c).length = l.length := by
  induction l generalizing c with
  | nil => rfl
  | cons t rest ih =>
    obtain ⟨s, w, v⟩ := t
    simp [assignWeeks, ih]

theorem dropnaIli_length (rows : List RawRow) :
    (dropnaIli rows).length +
      (rows.filter fun r => r.ili.isNone).length = rows.length := by
  induction rows with
  | nil => rfl
  | cons r rest ih =>
    cases hr : r.ili with
    | none =>
      simp [dropnaIli, List.filterMap_cons, hr, List.filter_cons] at *
      omega
    | some v =>
      simp [dropnaIli, List.filterMap_cons, hr, List.filter_cons] at *
      omega

theorem assignWeeks_filter_map_weeks (l : List (String × String × ℚ))
    (c : String → ℕ) (k : String) :
    (((assignWeeks l c).filter fun r => r.state == k).map DataRow.weeks) =
      List.range' (c k)
        (((assignWeeks l c).filter fun r => r.state == k).length) := by
  induction l generalizing c with
  | nil => rfl
  | cons t rest ih =>
    obtain ⟨s, w, v⟩ := t
    rw [assignWeeks, List.filter_cons]
    by_cases hs : s = k
    · subst hs
      have h := ih fun t => if t = s then c t + 1 else c t
      simp only [if_pos rfl] at h
      simp [List.range'_succ, h]
    · have h := ih fun t => if t = s then c t + 1 else c t
      have hk : (if k = s then c k + 1 else c k) = c k :=
        if_neg fun hc => hs hc.symm
      rw [hk] at h
      simp [hs, h]

theorem sampleTable_eq :
    sampleTable =
      [⟨"CA", "2010w01", 1, 0⟩, ⟨"TX", "2010w01", 7, 0⟩,
       ⟨"CA", "2010w02", 3, 1⟩, ⟨"CA", "2010w03", 5, 2⟩,
       ⟨"CA", "2010w04", 2, 3⟩, ⟨"CA", "2010w05", 4, 4⟩,
       ⟨"CA", "2010w06", 6, 5⟩] := by rfl

theorem time_series_ca_eq :
    time_series sampleTable "CA" true =
      [(0, 1), (1, 2), (2, 3), (3, 11/4), (4, 3), (5, 4)] := by
  rw [time_series, sampleTable_eq]
  simp [y_series_data, state_df, rolling5, window5, listMean, List.range_succ]
  norm_num

/-! ### Claims -/

/-- C1: for every non-empty collection of metric values whose arithmetic
mean is strictly positive, the distribution fit computes the rate
estimate as exactly 1 divided by the mean; the rate is a genuine
reciprocal (rate times mean is 1). -/
theorem fit_exponential_rate (vs : List ℚ) (h1 : vs ≠ [])
    (h2 : 0 < listMean vs) :
    ∃ r, fit_exponential vs = some r ∧ r.rate = 1 / listMean vs ∧
      r.rate * listMean vs = 1 := by
  have hlen : 0 < vs.length := List.length_pos.2 h1
  rw [fit_exponential, if_pos ⟨hlen, h2⟩]
  exact ⟨_, rfl, rfl, one_div_mul_cancel (ne_of_gt h2)⟩

/-- C1 witness: on the values [1, 2, 3] the sample mean is 2 and the
computed rate is 1/2. -/
theorem fit_exponential_rate_witness :
    listMean [1, 2, 3] = 2 ∧
    (∃ r, fit_exponential ([1, 2, 3] : List ℚ) = some r ∧
      r.rate = 1 / listMean [1, 2, 3] ∧ r.rate * listMean [1, 2, 3] = 1) ∧
    (∃ r, fit_exponential ([1, 2, 3] : List ℚ) = some r ∧
      r.rate = 1 / 2) := by
  refine ⟨by norm_num [listMean],
    fit_exponential_rate [1, 2, 3] (by simp) (by norm_num [listMean]),
    ⟨⟨1/2, 2, 3, [1, 2, 3], 33/10⟩, ?_, rfl⟩⟩
  simp [fit_exponential, listMean, listMax]
  norm_num

/-- C2: the distribution fit returns the NoFit sentinel (`none`, the
fallback-message path) exactly when the extracted value set of the group
is empty or its arithmetic mean is not strictly positive; in particular
the empty set and [0, 0] both yield NoFit, and NoFit is an ordinary
value of the total function, not a crash. -/
theorem fit_exponential_nofit_iff (table : List DataRow) (key : String) :
    (fit_exponential (ili_value table key) = none ↔
      ili_value table key = [] ∨ listMean (ili_value table key) ≤ 0) ∧
    fit_exponential [] = none ∧ fit_exponential [0, 0] = none := by
  refine ⟨?_, by simp [fit_exponential],
    by simp [fit_exponential, listMean]⟩
  set vs := ili_value table key with hvs
  simp only [fit_exponential]
  constructor
  · intro hnone
    by_contra hcon
    push_neg at hcon
    rw [if_pos ⟨List.length_pos.2 hcon.1, hcon.2⟩] at hnone
    exact Option.some_ne_none _ hnone
  · intro hcase
    have hneg : ¬(0 < vs.length ∧ 0 < listMean vs) := by
      rintro ⟨hl, hm⟩
      rcases hcase with h | h
      · rw [h] at hl
        simp at hl
      · exact absurd hm (not_lt.2 h)
    rw [if_neg hneg]

/-- C3: with smoothing enabled, the value at each index is the
arithmetic mean of itself and up to the 4 preceding raw values (the
trailing window shrinks at the start); consequently the smoothed value
at index 0 is the raw value at 0 and at index 1 it is the mean of the
first two raw values. -/
theorem rolling5_window_mean (xs : List ℚ) (i : ℕ) (h : i < xs.length) :
    (rolling5 xs)[i]? =
      some (((xs.drop (i - 4)).take (min (i + 1) 5)).sum /
        ((min (i + 1) 5 : ℕ) : ℚ)) ∧
    (∀ a, xs[0]? = some a → (rolling5 xs)[0]? = some a) ∧
    (∀ a b, xs[0]? = some a → xs[1]? = some b →
      (rolling5 xs)[1]? = some ((a + b) / 2)) := by
  refine ⟨?_, ?_, ?_⟩
  · rw [rolling5_getElem? xs i h, listMean, window5_length xs i h,
      window5_eq_drop_take]
  · intro a ha
    cases xs with
    | nil => simp at ha
    | cons y ys =>
      simp only [List.getElem?_cons_zero, Option.some.injEq] at ha
      subst ha
      rw [rolling5_getElem? _ 0 (by simp)]
      simp [window5, listMean]
  · intro a b ha hb
    cases xs with
    | nil => simp at ha
    | cons y ys =>
      cases ys with
      | nil => simp at hb
      | cons z zs =>
        simp only [List.getElem?_cons_zero, Option.some.injEq] at ha
        simp only [List.getElem?_cons_succ, List.getElem?_cons_zero,
          Option.some.injEq] at hb
        subst ha
        subst hb
        rw [rolling5_getElem? _ 1 (by simp)]
        simp [window5, listMean]

/-- C3 witness: instantiated at the series [1, 3, 5, 2, 4, 6], index 2. -/
theorem rolling5_window_mean_witness :
    (2 : ℕ) < ([1, 3, 5, 2, 4, 6] : List ℚ).length ∧
    ((rolling5 [1, 3, 5, 2, 4, 6])[2]? =
      some (((([1, 3, 5, 2, 4, 6] : List ℚ).drop (2 - 4)).take
        (min (2 + 1) 5)).sum / ((min (2 + 1) 5 : ℕ) : ℚ)) ∧
     (∀ a, ([1, 3, 5, 2, 4, 6] : List ℚ)[0]? = some a →
        (rolling5 [1, 3, 5, 2, 4, 6])[0]? = some a) ∧
     (∀ a b, ([1, 3, 5, 2, 4, 6] : List ℚ)[0]? = some a →
        ([1, 3, 5, 2, 4, 6] : List ℚ)[1]? = some b →
        (rolling5 [1, 3, 5, 2, 4, 6])[1]? = some ((a + b) / 2))) :=
  ⟨by norm_num, rolling5_window_mean [1, 3, 5, 2, 4, 6] 2 (by norm_num)⟩

/-- C4 counterexample: in the smoothed "CA" series built from the raw
values 1, 3, 5, 2, 4, 6 the value at index 5 is 4 — the mean of
3, 5, 2, 4, 6 — and not 3.5 as the claim states. -/
theorem time_series_ca_index5_ne :
    ((time_series sampleTable "CA" true).map Prod.snd)[5]? = some 4 ∧
      ((time_series sampleTable "CA" true).map Prod.snd)[5]? ≠
        some (7 / 2) := by
  rw [time_series_ca_eq]
  norm_num

/-- C4 (amended): the smoothed "CA" series has value 1 at index 0,
2 at index 1 (mean of 1 and 3), 3 at index 4 (mean of 1, 3, 5, 2, 4),
and 4 at index 5 (the mean of the last five values 3, 5, 2, 4, 6). -/
theorem time_series_ca_values :
    (time_series sampleTable "CA" true)[0]? = some (0, 1) ∧
    (time_series sampleTable "CA" true)[1]? = some (1, 2) ∧
    (time_series sampleTable "CA" true)[4]? = some (4, 3) ∧
    (time_series sampleTable "CA" true)[5]? = some (5, 4) := by
  rw [time_series_ca_eq]
  norm_num

/-- C5: the loader's output row count is at most the input row count and
the difference is exactly the number of input rows whose metric value is
missing; no other rows are dropped. -/
theorem load_data_row_count (rows : List RawRow) :
    (load_data rows).length ≤ rows.length ∧
      rows.length - (load_data rows).length =
        (rows.filter fun r => r.ili.isNone).length := by
  have h1 : (load_data rows).length = (dropnaIli rows).length :=
    assignWeeks_length _ _
  have h2 := dropnaIli_length rows
  omega

/-- C6: for every group, the derived sequence index of its post-filter
rows, read in order, is exactly 0, 1, …, n-1, whatever the time markers
are and independently of the other groups. -/
theorem load_data_weeks_range (rows : List RawRow) (k : String) :
    (((load_data rows).filter fun r => r.state == k).map DataRow.weeks) =
      List.range
        (((load_data rows).filter fun r => r.state == k).length) := by
  rw [List.range_eq_range']
  exact assignWeeks_filter_map_weeks (dropnaIli rows) (fun _ => 0) k

/-- C7: for a group key matching no rows, the time-series extraction
returns the empty sequence — not an error — whatever the smoothing
flag. -/
theorem time_series_unknown_key (table : List DataRow) (key : String)
    (b : Bool) (h : ∀ r ∈ table, r.state ≠ key) :
    time_series table key b = [] := by
  have hdf : state_df table key = [] := by
    rw [state_df, List.filter_eq_nil_iff]
    intro r hr
    simp [h r hr]
  have hys : y_series_data table key = [] := by
    rw [y_series_data, hdf]
    rfl
  cases b <;> simp [time_series, hys]

/-- C7 witness: "ZZ" matches no row of the sample table, and the
extraction is empty with smoothing both on and off. -/
theorem time_series_unknown_key_witness :
    time_series sampleTable "ZZ" true = [] ∧
    time_series sampleTable "ZZ" false = [] := by
  constructor <;>
  · apply time_series_unknown_key
    intro r hr
    rw [sampleTable_eq] at hr
    simp at hr
    rcases hr with rfl | rfl | rfl | rfl | rfl | rfl | rfl <;> decide

/-- C8: smoothing a constant-valued series returns it unchanged, value
for value. -/
theorem rolling5_const_series (xs : List ℚ) (c : ℚ)
    (h : ∀ x ∈ xs, x = c) : rolling5 xs = xs := by
  apply List.ext_getElem?
  intro i
  by_cases hi : i < xs.length
  · rw [rolling5_getElem? xs i hi,
      listMean_const (fun x hx => h x (mem_window5 hx))
        (window5_ne_nil xs i hi),
      List.getElem?_eq_getElem hi]
    exact congrArg some (h _ (List.getElem_mem hi)).symm
  · have h1 : (rolling5 xs).length ≤ i := by
      rw [length_rolling5]
      omega
    rw [List.getElem?_eq_none h1,
      List.getElem?_eq_none (by omega : xs.length ≤ i)]

/-- C8 witness: the constant series [2, 2, 2] is unchanged. -/
theorem rolling5_const_series_witness :
    rolling5 [2, 2, 2] = [2, 2, 2] :=
  rolling5_const_series [2, 2, 2] 2 (by
    intro x hx
    simpa using hx)

/-- C10: smoothing preserves the length and the index labels of the
series, and every smoothed value lies between the minimum and the
maximum of the raw values; on non-negative input the smoothed output is
non-negative. -/
theorem rolling5_bounds (xs : List ℚ) :
    (rolling5 xs).length = xs.length ∧
    (∀ (table : List DataRow) (key : String),
      (time_series table key true).map Prod.fst =
        (time_series table key false).map Prod.fst) ∧
    ∀ i, i < xs.length →
      ∃ q, (rolling5 xs)[i]? = some q ∧ listMin xs ≤ q ∧
        q ≤ listMax xs ∧ ((∀ x ∈ xs, 0 ≤ x) → 0 ≤ q) := by
  refine ⟨length_rolling5 xs, ?_, ?_⟩
  · intro table key
    by_cases hemp : (y_series_data table key).isEmpty
    · simp [time_series, hemp]
    · simp only [time_series, if_true, hemp, Bool.false_eq_true, if_false]
      rw [List.map_fst_zip _ _ (by simp [length_rolling5])]
  · intro i hi
    have hne : window5 xs i ≠ [] := window5_ne_nil xs i hi
    have hxs : xs ≠ [] := by
      intro hcon
      rw [hcon] at hi
      simp at hi
    refine ⟨listMean (window5 xs i), rolling5_getElem? xs i hi, ?_, ?_, ?_⟩
    · exact le_listMean hne fun x hx => listMin_le (mem_window5 hx)
    · exact listMean_le hne fun x hx => le_listMax (mem_window5 hx)
    · intro hpos
      exact le_trans (hpos _ (listMin_mem hxs))
        (le_listMean hne fun x hx => listMin_le (mem_window5 hx))

/-- C10 witness: instantiated at the series [1, 4, 2] and index 1. -/
theorem rolling5_bounds_witness :
    (1 : ℕ) < ([1, 4, 2] : List ℚ).length ∧
    ∃ q, (rolling5 [1, 4, 2])[1]? = some q ∧
      listMin [1, 4, 2] ≤ q ∧ q ≤ listMax [1, 4, 2] ∧
      ((∀ x ∈ ([1, 4, 2] : List ℚ), 0 ≤ x) → 0 ≤ q) :=
  ⟨by norm_num, (rolling5_bounds [1, 4, 2]).2.2 1 (by norm_num)⟩

/-- C9: whenever the fit succeeds, the suggested plotting domain extends
to exactly 1.1 times the maximum of the group's metric values. -/
theorem fit_exponential_domain_max (vs : List ℚ) (r : FitResult)
    (h : fit_exponential vs = some r) :
    ∃ m, m ∈ vs ∧ (∀ x ∈ vs, x ≤ m) ∧ r.domain_max = m * (11 / 10) := by
  rw [fit_exponential] at h
  by_cases hc : 0 < vs.length ∧ 0 < listMean vs
  · rw [if_pos hc] at h
    have hne : vs ≠ [] := List.length_pos.1 hc.1
    obtain rfl := Option.some.inj h
    exact ⟨listMax vs, listMax_mem hne, fun x hx => le_listMax hx, rfl⟩
  · rw [if_neg hc] at h
    cases h

/-- C9 witness: on [1, 2, 3] the fit succeeds and the plotting domain
upper end is 3 * 11/10. -/
theorem fit_exponential_domain_max_witness :
    ∃ m, m ∈ ([1, 2, 3] : List ℚ) ∧ (∀ x ∈ ([1, 2, 3] : List ℚ), x ≤ m) ∧
      (FitResult.mk (1/2) 2 3 [1, 2, 3] (33/10)).domain_max =
        m * (11 / 10) := by
  apply fit_exponential_domain_max [1, 2, 3]
  simp [fit_exponential, listMean, listMax]
  norm_num

end Project
